import Mathlib

/-!
Verification development for the incremental scanning engine of
code_context_builder (src-tauri). The Rust sources embedded here:
scan_tree.rs (path_ignored_by_patterns, gather_valid_items,
build_tree_from_paths, insert_node_recursive, finalize_node),
scanner.rs (do_actual_scan, scan_code_context_builder_project),
scan_cache.rs (CacheEntry, cleanup_removed_files, save_cache_entry).

Modelling conventions:
- Rust `String` paths are modelled as `List String` of path components,
  relative to the scan root (the root itself is `[]`); for the ignore
  matcher, which receives absolute paths, a path is the component list
  after the leading `/` (Unix absolute paths).
- `HashMap<String, _>` and the persistent cache table are modelled as
  functions `List String → Option _`; an update is a pointwise override,
  a delete is an override to `none`.
- The filesystem observed by the scan is a function
  `List String → Option FsEntry`: `none` models an `fs::metadata` error;
  the entry carries what the scan can observe of the file (directory
  flag, size, modification timestamp string, whether `read_to_string`
  succeeds, and the line/token counts the content would yield — content
  itself is abstracted, as token counting is an external collaborator).
- Machine integers (`u64`, `usize`) are modelled as `Nat`; the sums and
  sizes involved are far below wrap-around and no claim is about
  overflow behaviour.
- The global cancellation flag is modelled as the Boolean value the scan
  observes at its post-enumeration poll points.
-/

/-! # Definitions -/

/-! ## Character/string helpers mirroring the Rust std functions used -/

/-- Model of Rust `str::to_lowercase` on the character list (exact for
ASCII, which is all the claims exercise): `Char.toLower` each char. -/
def lcData (s : String) : List Char := s.data.map Char.toLower

/-- Model of Rust `str::trim` (strip whitespace both ends). -/
def trimData (s : String) : List Char :=
  ((s.data.dropWhile Char.isWhitespace).reverse.dropWhile Char.isWhitespace).reverse

/-- Does list `s` start with `p`? (Rust `str::starts_with`). -/
def startsSeq : List Char → List Char → Bool
  | _, [] => true
  | [], _ :: _ => false
  | c :: s, p :: ps => c == p && startsSeq s ps

/-- Does `p` occur as a contiguous subsequence of `s`? (Rust `str::contains`). -/
def hasSubSeq : List Char → List Char → Bool
  | s, p => startsSeq s p || (match s with
      | [] => false
      | _ :: t => hasSubSeq t p)

/-! ## Ignore matcher: scan_tree.rs `path_ignored_by_patterns`

The traversal in scan_tree.rs (`gather_valid_items`) classifies a path
with `path_ignored_by_patterns(real_path, &path_lc, ignore_patterns)`,
where `path_lc` is the lowercased full path string. A path is modelled
by its component list `comps` (absolute Unix path `/a/b` has
`comps = ["a", "b"]`); `real_path.components()` additionally yields the
root component whose `as_os_str` is `/`. -/

/-- The absolute path string: `/` before each component. -/
def pathString (comps : List String) : List Char :=
  comps.foldl (fun acc c => acc ++ '/' :: c.data) []

/-- `real_path.components() ... map(to_lowercase)`: the root dir gives
the segment `/`, then each component lowercased. -/
def pathSegments (comps : List String) : List (List Char) :=
  ['/'] :: comps.map lcData

/-- One iteration of the pattern loop of `path_ignored_by_patterns`:
does this single pattern match the path? `path_lc` is the lowercased
path string, computed once outside the loop in the source. -/
def patternMatches (comps : List String) (path_lc : List Char) (raw_pat : String) : Bool :=
  let pat_trim := trimData raw_pat
  if pat_trim.isEmpty then false
  else if startsSeq pat_trim ['/'] && pat_trim.length > 1 then
    -- `/name` : compare `pat_trim[1..].to_lowercase()` against every path segment
    let folder_name_to_match := (pat_trim.drop 1).map Char.toLower
    if folder_name_to_match.isEmpty then false
    else (pathSegments comps).any (fun seg => seg == folder_name_to_match)
  else if startsSeq pat_trim ['"'] && startsSeq pat_trim.reverse ['"'] && pat_trim.length ≥ 2 then
    -- `"exact"` : whole-path equality against the quoted text, lowercased
    path_lc == (pat_trim.drop 1).dropLast.map Char.toLower
  else
    -- plain pattern: substring test of the lowercased pattern in the lowercased path
    hasSubSeq path_lc (pat_trim.map Char.toLower)

/-- scan_tree.rs `path_ignored_by_patterns`: true iff some pattern of the
list matches (the source loops with early `return true`). -/
def path_ignored_by_patterns (comps : List String) (ignore_patterns : List String) : Bool :=
  ignore_patterns.any (patternMatches comps ((pathString comps).map Char.toLower))

/-! ## Data model: scan_cache.rs `CacheEntry`, observed filesystem entries,
types.rs `FileNode` -/

/-- scan_cache.rs `CacheEntry`: per-file cached statistics. -/
structure CacheEntry where
  last_modified : String
  size : Nat
  lines : Nat
  tokens : Nat
deriving DecidableEq, Repr

/-- What one filesystem path shows to the scan: the directory flag
(`Path::is_dir`), `fs::metadata` size, `file_modified_timestamp` string,
whether `fs::read_to_string` succeeds, and the line/token counts its
content yields (`content.lines().count()`, `approximate_token_count`). -/
structure FsEntry where
  is_dir : Bool
  size : Nat
  last_modified : String
  readOk : Bool
  lines : Nat
  tokens : Nat
deriving DecidableEq, Repr

/-- types.rs `FileNode` (path modelled as root-relative component list). -/
inductive FileNode where
  | mk (path : List String) (name : String) (is_dir : Bool)
       (lines tokens size : Nat) (last_modified : String)
       (children : List FileNode)

def FileNode.path : FileNode → List String
  | .mk p _ _ _ _ _ _ _ => p

def FileNode.name : FileNode → String
  | .mk _ n _ _ _ _ _ _ => n

def FileNode.is_dir : FileNode → Bool
  | .mk _ _ d _ _ _ _ _ => d

def FileNode.lines : FileNode → Nat
  | .mk _ _ _ l _ _ _ _ => l

def FileNode.tokens : FileNode → Nat
  | .mk _ _ _ _ t _ _ _ => t

def FileNode.size : FileNode → Nat
  | .mk _ _ _ _ _ s _ _ => s

def FileNode.last_modified : FileNode → String
  | .mk _ _ _ _ _ _ lm _ => lm

def FileNode.children : FileNode → List FileNode
  | .mk _ _ _ _ _ _ _ cs => cs

/-! ## finalize_node (scan_tree.rs)

`finalize_node` sorts a directory's children with
`sort_by(comparator)` — files before directories, then case-insensitive
alphabetical — recurses into the (sorted) children, then recomputes the
directory's lines/tokens/size as the sums over its finalized children.
The sort is modelled by `List.insertionSort` over the relation "the
comparator does not return Greater". -/

/-- The `sort_by` comparator of finalize_node. -/
def childCmp (a b : FileNode) : Ordering :=
  match a.is_dir, b.is_dir with
  | false, true => Ordering.lt
  | true, false => Ordering.gt
  | _, _ => compare a.name.toLower b.name.toLower

/-- The sortedness relation induced by `childCmp`: not Greater. -/
def childLe (a b : FileNode) : Prop := childCmp a b ≠ Ordering.gt

instance : DecidableRel childLe := fun a b => by
  unfold childLe; infer_instance

/-- Sum of `lines` over a children list (the aggregation loop). -/
def sumLines (cs : List FileNode) : Nat := cs.foldl (fun a c => a + c.lines) 0

/-- Sum of `tokens` over a children list. -/
def sumTokens (cs : List FileNode) : Nat := cs.foldl (fun a c => a + c.tokens) 0

/-- Sum of `size` over a children list. -/
def sumSize (cs : List FileNode) : Nat := cs.foldl (fun a c => a + c.size) 0

mutual

/-- scan_tree.rs `finalize_node`: for a directory, sort the children,
finalize each child, then set lines/tokens/size to the sums over the
finalized children; non-directories are left untouched. -/
def finalize_node : FileNode → FileNode
  | .mk p nm d l t s lm cs =>
    if d then
      let fin := finalizeList (List.insertionSort childLe cs)
      .mk p nm d (sumLines fin) (sumTokens fin) (sumSize fin) lm fin
    else .mk p nm d l t s lm cs
termination_by n => sizeOf n
decreasing_by
  rename_i cs _hd
  have h1 : sizeOf (List.insertionSort childLe cs) = sizeOf cs :=
    (List.perm_insertionSort childLe cs).sizeOf_eq_sizeOf
  simp [h1]

/-- The `for child in &mut node.children { finalize_node(child) }` loop. -/
def finalizeList : List FileNode → List FileNode
  | [] => []
  | c :: cs => finalize_node c :: finalizeList cs
termination_by l => sizeOf l
decreasing_by
  all_goals simp
  all_goals omega

end

/-! ## Tree building (scan_tree.rs `build_tree_from_paths`,
`insert_node_recursive`)

Paths are root-relative component lists; the root itself is `[]`, so the
`strip_prefix(root_path)` + `components()` step of the source is the
identity here, and the source's `path_str == root_path_str` skip is the
`q = []` skip. The path→node maps are functions to `Option`. -/

/-- A `HashMap<String, V>` as a function; `insert` overrides pointwise. -/
def mapInsert {V : Type} (k : List String) (v : V)
    (m : List String → Option V) : List String → Option V :=
  fun q => if q = k then some v else m q

/-- `HashMap::remove` (the ownership-taking removal of the build loop). -/
def mapRemove {V : Type} (k : List String)
    (m : List String → Option V) : List String → Option V :=
  fun q => if q = k then none else m q

/-- Append `node` under `current_node.children` unless a child with the
same path exists (the duplicate check of `insert_node_recursive`). -/
def addChildIfNew (cur node : FileNode) : FileNode :=
  match cur with
  | .mk p nm d l t s lm cs =>
    if cs.any (fun c => c.path = node.path) then .mk p nm d l t s lm cs
    else .mk p nm d l t s lm (cs ++ [node])

/-- Replace the first directory child named `target` by `f` of it; if no
such child exists the list is returned unchanged (the source then
returns without inserting — the orphaned-subtree drop). -/
def updateFirstDir (target : String) (f : FileNode → FileNode) :
    List FileNode → List FileNode
  | [] => []
  | c :: cs =>
    if c.is_dir && c.name == target then f c :: cs
    else c :: updateFirstDir target f cs

/-- scan_tree.rs `insert_node_recursive`: descend along `components`
through existing directory children; at the last component attach
`node_to_insert` (if its name matches and no duplicate path exists); a
missing intermediate directory drops the insertion. -/
def insert_node_recursive (node_to_insert : FileNode) :
    List String → FileNode → FileNode
  | [], cur => cur
  | [target], cur =>
    if cur.is_dir then
      if node_to_insert.name == target then addChildIfNew cur node_to_insert
      else cur
    else cur
  | target :: rest :: more, cur =>
    if cur.is_dir then
      match cur with
      | .mk p nm d l t s lm cs =>
        .mk p nm d l t s lm
          (updateFirstDir target (insert_node_recursive node_to_insert (rest :: more)) cs)
    else cur

/-- The per-path node data of step 2 of `build_tree_from_paths`: name is
the last path component (`file_name`), `is_dir` queries the filesystem,
file stats come from the cache map (zeros when absent). -/
def mkDataNode (rootName : String) (isDirOf : List String → Bool)
    (cache_map : List String → Option CacheEntry) (q : List String) : FileNode :=
  let name := match q.getLast? with
    | some n => n
    | none => rootName
  let d := isDirOf q
  if d then .mk q name d 0 0 0 "" []
  else match cache_map q with
    | some e => .mk q name d e.lines e.tokens e.size e.last_modified []
    | none => .mk q name d 0 0 0 "" []

/-- Step 2's loop: build the path → node data map over `valid_paths`. -/
def dataMapOf (rootName : String) (isDirOf : List String → Bool)
    (cache_map : List String → Option CacheEntry) (valid_paths : List (List String)) :
    List String → Option FileNode :=
  valid_paths.foldl
    (fun m q => mapInsert q (mkDataNode rootName isDirOf cache_map q) m)
    (fun _ => none)

/-- Lexicographic comparison of component lists, modelling the `Ord` of
`PathBuf` (componentwise) used by `sorted_paths.sort()`. -/
def pathLeB : List String → List String → Bool
  | [], _ => true
  | _ :: _, [] => false
  | a :: as_, b :: bs => if a < b then true else if b < a then false else pathLeB as_ bs

def pathLe (x y : List String) : Prop := pathLeB x y = true

instance : DecidableRel pathLe := fun x y => by
  unfold pathLe; infer_instance

/-- Step 4's insertion loop: for each sorted path, skip the root, take
the node data out of the map, insert it along its components. (The
cancellation break is not taken here: a set flag already ends the scan
at the checkpoint before tree building, see `do_actual_scan`.) -/
def buildLoop : List (List String) → (List String → Option FileNode) → FileNode → FileNode
  | [], _, root => root
  | q :: rest, dmap, root =>
    if q = [] then buildLoop rest dmap root
    else match dmap q with
      | some node =>
        buildLoop rest (mapRemove q dmap) (insert_node_recursive node q root)
      | none => buildLoop rest dmap root

/-- scan_tree.rs `build_tree_from_paths`: root node, data map, sorted
insertion of every non-root valid path, then `finalize_node`. -/
def build_tree_from_paths (rootName : String) (valid_paths : List (List String))
    (isDirOf : List String → Bool)
    (cache_map : List String → Option CacheEntry) : FileNode :=
  let root_node : FileNode := .mk [] rootName true 0 0 0 "" []
  if valid_paths = [] then root_node
  else
    let dmap := dataMapOf rootName isDirOf cache_map valid_paths
    let sorted_paths := List.insertionSort pathLe valid_paths
    finalize_node (buildLoop sorted_paths dmap root_node)

/-! ## Cache store operations (scan_cache.rs) and the stats stage
(scanner.rs, the `par_iter().try_for_each` body) -/

/-- scanner.rs `MAX_FILE_SIZE_BYTES`: the 5 MiB cap. -/
def MAX_FILE_SIZE_BYTES : Nat := 5 * 1024 * 1024

/-- scan_cache.rs `cleanup_removed_files` as it acts on one path→entry
map: every key not among `valid_paths` is deleted. The source performs
this once against the in-memory map and mirrors each delete into the
store table inside the open transaction; the model applies it to each. -/
def cleanup_removed_files (valid_paths : List (List String))
    (m : List String → Option CacheEntry) : List String → Option CacheEntry :=
  fun p => if p ∈ valid_paths then m p else none

/-- scan_cache.rs `save_cache_entry` (INSERT .. ON CONFLICT UPDATE):
pointwise upsert. -/
def save_cache_entry (file_path : List String) (entry : CacheEntry)
    (m : List String → Option CacheEntry) : List String → Option CacheEntry :=
  mapInsert file_path entry m

/-- The `for (file_path, entry) in changed_list` loop: upsert each
changed entry in order (the source updates the in-memory map and the
store identically). -/
def applyChanges (changes : List (List String × CacheEntry))
    (m : List String → Option CacheEntry) : List String → Option CacheEntry :=
  changes.foldl (fun acc pe => save_cache_entry pe.1 pe.2 acc) m

/-- What the parallel per-item closure of `do_actual_scan` did for one
candidate path (progress emission aside). -/
inductive FileOutcome where
  | skippedDir
  | metaFailed
  | skippedEmpty
  | skippedOversize
  | reused
  | readFailed (entry : CacheEntry)
  | computed (entry : CacheEntry)
deriving DecidableEq, Repr

/-- The body of `final_valid_paths.par_iter().try_for_each` for one path
(cancellation unset): skip directories, metadata errors, empty and
oversized files; otherwise compare the cached entry's
`(last_modified, size)` against the current metadata; reuse when equal,
else read content — a failed read yields a zero-stat entry, a successful
read yields the computed entry. -/
def processFile (fs : List String → Option FsEntry)
    (cache_map : List String → Option CacheEntry) (p : List String) : FileOutcome :=
  match fs p with
  | none => FileOutcome.metaFailed
  | some meta =>
    if meta.is_dir then FileOutcome.skippedDir
    else
      let file_size := meta.size
      if file_size = 0 then FileOutcome.skippedEmpty
      else if file_size > MAX_FILE_SIZE_BYTES then FileOutcome.skippedOversize
      else
        let last_mod_str := meta.last_modified
        let needs_update := match cache_map p with
          | some entry => entry.last_modified != last_mod_str || entry.size != file_size
          | none => true
        if !needs_update then FileOutcome.reused
        else if meta.readOk then
          FileOutcome.computed ⟨last_mod_str, file_size, meta.lines, meta.tokens⟩
        else
          FileOutcome.readFailed ⟨last_mod_str, file_size, 0, 0⟩

/-- Whether the outcome read the file's content (`fs::read_to_string`
was called: it either succeeded or failed). -/
def readsContent : FileOutcome → Bool
  | FileOutcome.computed _ => true
  | FileOutcome.readFailed _ => true
  | _ => false

/-- The entry the outcome pushes onto `changed_entries`, if any. -/
def outcomeEntry : FileOutcome → Option CacheEntry
  | FileOutcome.computed e => some e
  | FileOutcome.readFailed e => some e
  | _ => none

/-- The `changed_entries` buffer after the parallel stage (modelled in
candidate order; the aggregation below is order-independent). -/
def statsStage (fs : List String → Option FsEntry)
    (cache_map : List String → Option CacheEntry)
    (final_valid_paths : List (List String)) : List (List String × CacheEntry) :=
  final_valid_paths.foldl
    (fun acc p => match outcomeEntry (processFile fs cache_map p) with
      | some e => acc ++ [(p, e)]
      | none => acc)
    []

/-! ## The scan (scanner.rs `do_actual_scan` after enumeration, and the
`scan_code_context_builder_project` command wrapper) -/

/-- `Path::is_dir` against the observed filesystem. -/
def isDirOfFs (fs : List String → Option FsEntry) (q : List String) : Bool :=
  match fs q with
  | some e => e.is_dir
  | none => false

/-- What a committed scan leaves behind: the persistent cache table, the
in-memory cache map, and the returned tree. -/
structure ScanOutput where
  store : List String → Option CacheEntry
  cache : List String → Option CacheEntry
  tree : FileNode

/-- scanner.rs `do_actual_scan` from the post-enumeration checkpoint on
(cache loading, pattern compilation and `gather_valid_items` produced
`cache_map` = the loaded store and `final_valid_paths`).
`cancelled` is the cancellation flag as observed from the
post-enumeration poll point on. An empty candidate list commits a
cleanup-only transaction and returns a zero-stat, childless root.
Otherwise: parallel stats stage, then one transaction of
`cleanup_removed_files` followed by the upserts of `changed_entries`
(mirrored into the in-memory map), then `build_tree_from_paths`. -/
def do_actual_scan (cancelled : Bool) (rootName : String)
    (fs : List String → Option FsEntry)
    (final_valid_paths : List (List String))
    (store cache_map : List String → Option CacheEntry) :
    Except String ScanOutput :=
  if cancelled then Except.error "Scan cancelled after file enumeration."
  else if final_valid_paths = [] then
    let store1 := cleanup_removed_files final_valid_paths store
    let cache1 := cleanup_removed_files final_valid_paths cache_map
    Except.ok ⟨store1, cache1, .mk [] rootName true 0 0 0 "" []⟩
  else
    let changed_entries := statsStage fs cache_map final_valid_paths
    let store1 := cleanup_removed_files final_valid_paths store
    let cache1 := cleanup_removed_files final_valid_paths cache_map
    let store2 := applyChanges changed_entries store1
    let cache2 := applyChanges changed_entries cache1
    Except.ok ⟨store2, cache2,
      build_tree_from_paths rootName final_valid_paths (isDirOfFs fs) cache2⟩

/-- scanner.rs `scan_code_context_builder_project` around
`do_actual_scan`: emits exactly one terminal `scan_complete` status —
"done" or "cancelled" on success depending on the flag, or the error
truncated to 150 characters after "failed: " — and forwards the result.
The triple also exposes the persistent store after the call (unchanged
when the scan returned an error, since no transaction was committed). -/
def scan_code_context_builder_project (cancelled : Bool) (rootName : String)
    (fs : List String → Option FsEntry)
    (final_valid_paths : List (List String))
    (store cache_map : List String → Option CacheEntry) :
    List String × Except String FileNode × (List String → Option CacheEntry) :=
  match do_actual_scan cancelled rootName fs final_valid_paths store cache_map with
  | Except.ok out =>
    ([if cancelled then "scan_complete: cancelled" else "scan_complete: done"],
     Except.ok out.tree, out.store)
  | Except.error e =>
    (["scan_complete: failed: " ++ String.mk (e.data.take 150)],
     Except.error e, store)

/-! ## Checkers for the tree invariants the claims state -/

/-- Boolean form of `childLe`: the comparator does not say Greater. -/
def childLeB (a b : FileNode) : Bool := childCmp a b != Ordering.gt

/-- Every element is ≤ (by the comparator) every later element. -/
def pairwiseLeB : List FileNode → Bool
  | [] => true
  | a :: rest => rest.all (fun b => childLeB a b) && pairwiseLeB rest

mutual

/-- Every directory node of the tree (reached through directories) has
`lines`/`tokens`/`size` equal to the sums over its direct children. -/
def aggOk : FileNode → Bool
  | .mk _ _ d l t s _ cs =>
    if d then
      (l == sumLines cs && t == sumTokens cs && s == sumSize cs) && aggOkList cs
    else true
termination_by n => sizeOf n
decreasing_by
  all_goals simp

def aggOkList : List FileNode → Bool
  | [] => true
  | c :: cs => aggOk c && aggOkList cs
termination_by l => sizeOf l
decreasing_by
  all_goals simp
  all_goals omega

end

mutual

/-- Every directory node's children list is sorted by the comparator:
files before directories, case-insensitively alphabetical within each
group. -/
def sortedOk : FileNode → Bool
  | .mk _ _ d _ _ _ _ cs =>
    if d then pairwiseLeB cs && sortedOkList cs else true
termination_by n => sizeOf n
decreasing_by
  all_goals simp

def sortedOkList : List FileNode → Bool
  | [] => true
  | c :: cs => sortedOk c && sortedOkList cs
termination_by l => sizeOf l
decreasing_by
  all_goals simp
  all_goals omega

end

mutual

/-- All nodes of a tree (the tree itself and, recursively, its
children's nodes). -/
def allNodes : FileNode → List FileNode
  | .mk p nm d l t s lm cs => .mk p nm d l t s lm cs :: allNodesList cs
termination_by n => sizeOf n
decreasing_by
  all_goals simp

def allNodesList : List FileNode → List FileNode
  | [] => []
  | c :: cs => allNodes c ++ allNodesList cs
termination_by l => sizeOf l
decreasing_by
  all_goals simp
  all_goals omega

end

/-! ## The comparator relation is total and transitive -/

instance : IsTotal FileNode childLe := ⟨by
  intro a b
  have hle : ∀ x y : String, x ≤ y → compare x y ≠ Ordering.gt := by
    intro x y h
    rw [Ne, compare_gt_iff_gt]
    exact not_lt.mpr h
  unfold childLe childCmp
  cases ha : a.is_dir <;> cases hb : b.is_dir
  · rcases le_total a.name.toLower b.name.toLower with h | h
    · exact Or.inl (hle _ _ h)
    · exact Or.inr (hle _ _ h)
  · exact Or.inl (by simp)
  · exact Or.inr (by simp)
  · rcases le_total a.name.toLower b.name.toLower with h | h
    · exact Or.inl (hle _ _ h)
    · exact Or.inr (hle _ _ h)⟩

instance : IsTrans FileNode childLe := ⟨by
  intro a b c hab hbc
  have hle : ∀ x y : String, x ≤ y → compare x y ≠ Ordering.gt := by
    intro x y h
    rw [Ne, compare_gt_iff_gt]
    exact not_lt.mpr h
  have hge : ∀ x y : String, compare x y ≠ Ordering.gt → x ≤ y := by
    intro x y h
    rw [Ne, compare_gt_iff_gt] at h
    exact not_lt.mp h
  unfold childLe childCmp at *
  cases ha : a.is_dir <;> cases hb : b.is_dir <;> cases hc : c.is_dir <;>
    rw [ha, hb] at hab <;> rw [hb, hc] at hbc <;> simp_all
  · exact hle _ _ (le_trans (hge _ _ hab) (hge _ _ hbc))
  · exact hle _ _ (le_trans (hge _ _ hab) (hge _ _ hbc))⟩

/-! ## Where tree nodes come from

Every node of a built tree is the root (path `[]`, a directory) or
stems from the data-map entry of a valid path; in particular every
non-directory node carries exactly the data-map stats of its path. -/

def nodeCond (rootName : String) (valid_paths : List (List String))
    (isDirOf : List String → Bool)
    (cache_map : List String → Option CacheEntry) (n : FileNode) : Prop :=
  (n.path = [] ∧ n.is_dir = true) ∨
  (n.path ∈ valid_paths ∧ n.path ≠ [] ∧ n.is_dir = isDirOf n.path ∧
    (n.is_dir = false → n = mkDataNode rootName isDirOf cache_map n.path))

/-- The staleness test of the stats stage (`needs_update`): no cached
entry, or a `last_modified` or `size` mismatch. -/
def cacheStale (cache_map : List String → Option CacheEntry)
    (q : List String) (meta : FsEntry) : Bool :=
  match cache_map q with
  | some entry => entry.last_modified != meta.last_modified || entry.size != meta.size
  | none => true

/-! ## The traversal (scan_tree.rs `gather_valid_items`)

The directory structure under scan is an `FsTree`; a node's path is its
parent's component list plus its own name. The source recurses over
`fs::read_dir`, checks the depth cap (30) at entry, then the ignore
patterns, collects the path, and recurses into directory children with
depth + 1 (cancellation unset; sibling names on a real filesystem are
unique, so the `collected.contains` dedup check never fires and
membership in the result is unaffected by modelling it away). -/

inductive FsTree where
  | file (name : String)
  | dir (name : String) (children : List FsTree)

def FsTree.name : FsTree → String
  | .file n => n
  | .dir n _ => n

mutual

/-- scan_tree.rs `gather_valid_items` (paths as component lists). -/
def gather_valid_items (t : FsTree) (parentComps : List String)
    (ignore_patterns : List String) (depth : Nat) : List (List String) :=
  if depth > 30 then []
  else if path_ignored_by_patterns (parentComps ++ [t.name]) ignore_patterns then []
  else (parentComps ++ [t.name]) ::
    (match t with
     | .file _ => []
     | .dir _ children =>
        gatherList children (parentComps ++ [t.name]) ignore_patterns (depth + 1))
termination_by sizeOf t
decreasing_by
  cases t <;> simp_all

/-- The `for entry_result in entries` loop. -/
def gatherList (ts : List FsTree) (parentComps : List String)
    (ignore_patterns : List String) (depth : Nat) : List (List String) :=
  match ts with
  | [] => []
  | t :: rest =>
    gather_valid_items t parentComps ignore_patterns depth ++
      gatherList rest parentComps ignore_patterns depth
termination_by sizeOf ts
decreasing_by
  all_goals simp
  all_goals omega

end

def c2fs : List String → Option FsEntry := fun q =>
  if q = ["a.txt"] then some ⟨false, 3, "5", true, 1, 2⟩ else none

def c3store : List String → Option CacheEntry := fun q =>
  if q = ["gone.txt"] then some ⟨"9", 4, 2, 3⟩ else none

/-! ## C6: empty and oversized files -/

def c6fs : List String → Option FsEntry := fun q =>
  if q = [] then some ⟨true, 0, "", true, 0, 0⟩
  else if q = ["big.txt"] then some ⟨false, MAX_FILE_SIZE_BYTES + 1, "7", true, 9, 9⟩
  else none

/-! ## C7: cancellation after enumeration -/

def c7store : List String → Option CacheEntry := fun q =>
  if q = ["old.txt"] then some ⟨"1", 1, 1, 1⟩ else none

/-! # Theorems -/

@[simp] theorem FileNode.path_mk (p nm d l t s lm cs) :
    (FileNode.mk p nm d l t s lm cs).path = p := rfl

@[simp] theorem FileNode.name_mk (p nm d l t s lm cs) :
    (FileNode.mk p nm d l t s lm cs).name = nm := rfl

@[simp] theorem FileNode.is_dir_mk (p nm d l t s lm cs) :
    (FileNode.mk p nm d l t s lm cs).is_dir = d := rfl

@[simp] theorem FileNode.lines_mk (p nm d l t s lm cs) :
    (FileNode.mk p nm d l t s lm cs).lines = l := rfl

@[simp] theorem FileNode.tokens_mk (p nm d l t s lm cs) :
    (FileNode.mk p nm d l t s lm cs).tokens = t := rfl

@[simp] theorem FileNode.size_mk (p nm d l t s lm cs) :
    (FileNode.mk p nm d l t s lm cs).size = s := rfl

@[simp] theorem FileNode.last_modified_mk (p nm d l t s lm cs) :
    (FileNode.mk p nm d l t s lm cs).last_modified = lm := rfl

@[simp] theorem FileNode.children_mk (p nm d l t s lm cs) :
    (FileNode.mk p nm d l t s lm cs).children = cs := rfl

/-! ## Lemmas about the ignore matcher -/

theorem startsSeq_mem {s p : List Char} (h : startsSeq s p = true) :
    ∀ c ∈ p, c ∈ s := by
  induction p generalizing s with
  | nil => intro c hc; cases hc
  | cons q ps ih =>
    cases s with
    | nil => simp [startsSeq] at h
    | cons a s' =>
      simp only [startsSeq, Bool.and_eq_true, beq_iff_eq] at h
      intro c hc
      rcases List.mem_cons.mp hc with hc | hc
      · subst hc; rw [← h.1]; exact List.mem_cons_self _ _
      · exact List.mem_cons_of_mem _ (ih h.2 c hc)

theorem hasSubSeq_mem {s p : List Char} (h : hasSubSeq s p = true) :
    ∀ c ∈ p, c ∈ s := by
  induction s with
  | nil =>
    rw [hasSubSeq] at h
    simp only [Bool.or_eq_true] at h
    rcases h with h | h
    · exact startsSeq_mem h
    · cases h
  | cons a t ih =>
    rw [hasSubSeq] at h
    simp only [Bool.or_eq_true] at h
    rcases h with h | h
    · exact startsSeq_mem h
    · intro c hc; exact List.mem_cons_of_mem _ (ih h c hc)

theorem mem_pathString {comps : List String} {ch : Char}
    (h : ch ∈ pathString comps) : ch = '/' ∨ ∃ x ∈ comps, ch ∈ x.data := by
  unfold pathString at h
  suffices H : ∀ (acc : List Char), ch ∈ comps.foldl (fun acc c => acc ++ '/' :: c.data) acc →
      ch ∈ acc ∨ ch = '/' ∨ ∃ x ∈ comps, ch ∈ x.data by
    rcases H [] h with h0 | h0
    · cases h0
    · exact h0
  clear h
  induction comps with
  | nil => intro acc h; exact Or.inl h
  | cons x xs ih =>
    intro acc h
    rcases ih (acc ++ '/' :: x.data) h with h0 | h0 | h0
    · rcases List.mem_append.mp h0 with h1 | h1
      · exact Or.inl h1
      · rcases List.mem_cons.mp h1 with h2 | h2
        · exact Or.inr (Or.inl h2)
        · exact Or.inr (Or.inr ⟨x, List.mem_cons_self _ _, h2⟩)
    · exact Or.inr (Or.inl h0)
    · rcases h0 with ⟨y, hy, hcy⟩
      exact Or.inr (Or.inr ⟨y, List.mem_cons_of_mem _ hy, hcy⟩)

/-- Characters of the lowercased path string: `/` or a character of a
lowercased component. -/
theorem mem_pathString_lower {comps : List String} {ch : Char}
    (h : ch ∈ (pathString comps).map Char.toLower) :
    ch = '/' ∨ ∃ x ∈ comps, ch ∈ lcData x := by
  rcases List.mem_map.mp h with ⟨c0, hc0, rfl⟩
  rcases mem_pathString hc0 with h1 | ⟨x, hx, hcx⟩
  · subst h1; exact Or.inl (by decide)
  · exact Or.inr ⟨x, hx, List.mem_map.mpr ⟨c0, hcx, rfl⟩⟩

theorem mem_pathSegments {comps : List String} {seg : List Char}
    (h : seg ∈ pathSegments comps) : seg = ['/'] ∨ ∃ x ∈ comps, seg = lcData x := by
  unfold pathSegments at h
  rcases List.mem_cons.mp h with h1 | h1
  · exact Or.inl h1
  · rcases List.mem_map.mp h1 with ⟨x, hx, rfl⟩
    exact Or.inr ⟨x, hx, rfl⟩

/-- A substring pattern containing a marker character absent from the
path cannot match. -/
theorem hasSubSeq_eq_false_of_marker {lc pat : List Char} {m : Char}
    (hm : m ∈ pat) (hnot : m ∉ lc) : hasSubSeq lc pat = false := by
  cases h : hasSubSeq lc pat
  · rfl
  · exact absurd (hasSubSeq_mem h m hm) hnot

/-- A `/name` pattern whose stored folder text contains `/` matches no
path segment (segments are single components plus the root `/`). -/
theorem segmentAny_eq_false {comps : List String} {folder : List Char}
    (hin : '/' ∈ folder) (hne : folder ≠ ['/'])
    (hslash : ∀ x ∈ comps, '/' ∉ lcData x) :
    (pathSegments comps).any (fun seg => seg == folder) = false := by
  rw [List.any_eq_false]
  intro seg hseg
  simp only [beq_iff_eq]
  rcases mem_pathSegments hseg with h1 | ⟨x, hx, rfl⟩
  · subst h1
    intro h2; exact hne h2.symm
  · intro h2
    exact hslash x hx (h2 ▸ hin)

/-! ## Induction principle and unfolding equations for the tree
functions -/

theorem FileNode.strongInduction {P : FileNode → Prop}
    (h : ∀ p nm d l t s lm cs, (∀ c ∈ cs, P c) → P (.mk p nm d l t s lm cs)) :
    ∀ n, P n := by
  suffices H : ∀ k n, sizeOf n ≤ k → P n from fun n => H (sizeOf n) n le_rfl
  intro k
  induction k with
  | zero =>
    intro n hn
    cases n with
    | mk p nm d l t s lm cs => simp at hn
  | succ k ih =>
    intro n hn
    cases n with
    | mk p nm d l t s lm cs =>
      refine h p nm d l t s lm cs (fun c hc => ih c ?_)
      have h1 := List.sizeOf_lt_of_mem hc
      simp at hn
      omega

theorem finalize_node_dir (p nm l t s lm cs) :
    finalize_node (.mk p nm true l t s lm cs) =
      .mk p nm true (sumLines (finalizeList (List.insertionSort childLe cs)))
        (sumTokens (finalizeList (List.insertionSort childLe cs)))
        (sumSize (finalizeList (List.insertionSort childLe cs)))
        lm (finalizeList (List.insertionSort childLe cs)) := by
  rw [finalize_node]; simp

theorem finalize_node_file (p nm l t s lm cs) :
    finalize_node (.mk p nm false l t s lm cs) = .mk p nm false l t s lm cs := by
  rw [finalize_node]; simp

theorem finalizeList_eq_map (l : List FileNode) :
    finalizeList l = l.map finalize_node := by
  induction l with
  | nil => rw [finalizeList]; rfl
  | cons c cs ih => rw [finalizeList, ih]; rfl

theorem finalize_node_name (n : FileNode) :
    (finalize_node n).name = n.name := by
  cases n with
  | mk p nm d l t s lm cs =>
    cases d
    · rw [finalize_node_file]
    · rw [finalize_node_dir]; simp

theorem finalize_node_is_dir (n : FileNode) :
    (finalize_node n).is_dir = n.is_dir := by
  cases n with
  | mk p nm d l t s lm cs =>
    cases d
    · rw [finalize_node_file]
    · rw [finalize_node_dir]; simp

theorem aggOk_dir (p nm l t s lm cs) :
    aggOk (.mk p nm true l t s lm cs) =
      ((l == sumLines cs && t == sumTokens cs && s == sumSize cs) && aggOkList cs) := by
  rw [aggOk]; simp

theorem aggOk_file (p nm l t s lm cs) :
    aggOk (.mk p nm false l t s lm cs) = true := by
  rw [aggOk]; simp

theorem aggOkList_eq_all (l : List FileNode) :
    aggOkList l = l.all aggOk := by
  induction l with
  | nil => rw [aggOkList]; rfl
  | cons c cs ih => rw [aggOkList, ih]; rfl

theorem sortedOk_dir (p nm l t s lm cs) :
    sortedOk (.mk p nm true l t s lm cs) = (pairwiseLeB cs && sortedOkList cs) := by
  rw [sortedOk]; simp

theorem sortedOk_file (p nm l t s lm cs) :
    sortedOk (.mk p nm false l t s lm cs) = true := by
  rw [sortedOk]; simp

theorem sortedOkList_eq_all (l : List FileNode) :
    sortedOkList l = l.all sortedOk := by
  induction l with
  | nil => rw [sortedOkList]; rfl
  | cons c cs ih => rw [sortedOkList, ih]; rfl

theorem allNodes_mk (p nm d l t s lm cs) :
    allNodes (.mk p nm d l t s lm cs) = .mk p nm d l t s lm cs :: allNodesList cs := by
  rw [allNodes]

theorem allNodesList_eq_flat (l : List FileNode) :
    allNodesList l = l.flatMap allNodes := by
  induction l with
  | nil => rw [allNodesList]; rfl
  | cons c cs ih => rw [allNodesList, ih]; rfl

/-! ## finalize_node establishes the aggregation and ordering
invariants -/

theorem aggOk_finalize : ∀ n, aggOk (finalize_node n) = true := by
  refine FileNode.strongInduction ?_
  intro p nm d l t s lm cs ih
  cases d
  · rw [finalize_node_file, aggOk_file]
  · rw [finalize_node_dir, aggOk_dir]
    simp only [beq_self_eq_true, Bool.and_true, Bool.true_and]
    rw [aggOkList_eq_all, finalizeList_eq_map, List.all_eq_true]
    intro x hx
    rcases List.mem_map.mp hx with ⟨c, hc, rfl⟩
    exact ih c ((List.mem_insertionSort childLe).mp hc)

theorem childLeB_iff {a b : FileNode} : childLeB a b = true ↔ childLe a b := by
  unfold childLeB childLe
  cases h : childCmp a b <;> simp <;> decide

theorem childLe_finalize {a b : FileNode} (h : childLe a b) :
    childLe (finalize_node a) (finalize_node b) := by
  unfold childLe childCmp at *
  rw [finalize_node_is_dir, finalize_node_is_dir, finalize_node_name, finalize_node_name]
  exact h

theorem pairwiseLeB_of_pairwise {l : List FileNode}
    (h : List.Pairwise childLe l) : pairwiseLeB l = true := by
  induction l with
  | nil => rfl
  | cons a rest ih =>
    rcases List.pairwise_cons.mp h with ⟨h1, h2⟩
    rw [pairwiseLeB]
    simp only [Bool.and_eq_true, List.all_eq_true]
    exact ⟨fun b hb => childLeB_iff.mpr (h1 b hb), ih h2⟩

theorem sortedOk_finalize : ∀ n, sortedOk (finalize_node n) = true := by
  refine FileNode.strongInduction ?_
  intro p nm d l t s lm cs ih
  cases d
  · rw [finalize_node_file, sortedOk_file]
  · rw [finalize_node_dir, sortedOk_dir]
    simp only [Bool.and_eq_true]
    constructor
    · apply pairwiseLeB_of_pairwise
      rw [finalizeList_eq_map]
      exact List.Pairwise.map _ (fun a b h => childLe_finalize h)
        (List.sorted_insertionSort childLe cs)
    · rw [sortedOkList_eq_all, finalizeList_eq_map, List.all_eq_true]
      intro x hx
      rcases List.mem_map.mp hx with ⟨c, hc, rfl⟩
      exact ih c ((List.mem_insertionSort childLe).mp hc)

theorem mkDataNode_path (rootName isDirOf cache_map q) :
    (mkDataNode rootName isDirOf cache_map q).path = q := by
  unfold mkDataNode
  cases h : isDirOf q
  · cases cache_map q <;> simp
  · simp

theorem mkDataNode_is_dir (rootName isDirOf cache_map q) :
    (mkDataNode rootName isDirOf cache_map q).is_dir = isDirOf q := by
  unfold mkDataNode
  cases h : isDirOf q
  · cases cache_map q <;> simp
  · simp

theorem mkDataNode_children (rootName isDirOf cache_map q) :
    (mkDataNode rootName isDirOf cache_map q).children = [] := by
  unfold mkDataNode
  cases h : isDirOf q
  · cases cache_map q <;> simp
  · simp

theorem allNodes_self (n : FileNode) : n ∈ allNodes n := by
  cases n with
  | mk p nm d l t s lm cs => rw [allNodes_mk]; exact List.mem_cons_self _ _

theorem mem_allNodes_mk {m : FileNode} {p nm d l t s lm cs}
    (h : m ∈ allNodes (.mk p nm d l t s lm cs)) :
    m = .mk p nm d l t s lm cs ∨ ∃ c ∈ cs, m ∈ allNodes c := by
  rw [allNodes_mk, allNodesList_eq_flat] at h
  rcases List.mem_cons.mp h with h1 | h1
  · exact Or.inl h1
  · rcases List.mem_flatMap.mp h1 with ⟨c, hc, hm⟩
    exact Or.inr ⟨c, hc, hm⟩

theorem allNodes_of_child {m c : FileNode} {p nm d l t s lm cs}
    (hc : c ∈ cs) (hm : m ∈ allNodes c) : m ∈ allNodes (.mk p nm d l t s lm cs) := by
  rw [allNodes_mk, allNodesList_eq_flat]
  exact List.mem_cons_of_mem _ (List.mem_flatMap.mpr ⟨c, hc, hm⟩)

/-- `nodeCond` for a directory node ignores stats and children. -/
theorem nodeCond_dir_transfer {rootName valid_paths isDirOf cache_map}
    {p nm l t s lm cs l' t' s' lm' cs'}
    (h : nodeCond rootName valid_paths isDirOf cache_map (.mk p nm true l t s lm cs)) :
    nodeCond rootName valid_paths isDirOf cache_map (.mk p nm true l' t' s' lm' cs') := by
  unfold nodeCond at *
  simp only [FileNode.path_mk, FileNode.is_dir_mk] at *
  rcases h with h | ⟨h1, h2, h3, _⟩
  · exact Or.inl h
  · exact Or.inr ⟨h1, h2, h3, by intro hf; cases hf⟩

theorem updateFirstDir_mem {target f} {cs : List FileNode} {x : FileNode}
    (h : x ∈ updateFirstDir target f cs) :
    x ∈ cs ∨ ∃ c ∈ cs, x = f c := by
  induction cs with
  | nil => cases h
  | cons c rest ih =>
    rw [updateFirstDir] at h
    by_cases hc : (c.is_dir && c.name == target) = true
    · rw [if_pos hc] at h
      rcases List.mem_cons.mp h with h1 | h1
      · exact Or.inr ⟨c, List.mem_cons_self _ _, h1⟩
      · exact Or.inl (List.mem_cons_of_mem _ h1)
    · rw [if_neg hc] at h
      rcases List.mem_cons.mp h with h1 | h1
      · exact Or.inl (h1 ▸ List.mem_cons_self _ _)
      · rcases ih h1 with h2 | ⟨c', hc', h2⟩
        · exact Or.inl (List.mem_cons_of_mem _ h2)
        · exact Or.inr ⟨c', List.mem_cons_of_mem _ hc', h2⟩

theorem addChildIfNew_mk (p nm d l t s lm cs node) :
    addChildIfNew (.mk p nm d l t s lm cs) node =
      if cs.any (fun c => c.path = node.path) then FileNode.mk p nm d l t s lm cs
      else FileNode.mk p nm d l t s lm (cs ++ [node]) := rfl

theorem insert_node_nil (node cur) : insert_node_recursive node [] cur = cur := rfl

theorem insert_node_single (node target cur) :
    insert_node_recursive node [target] cur =
      if cur.is_dir then
        (if node.name == target then addChildIfNew cur node else cur)
      else cur := rfl

theorem insert_node_deep_mk (node target r2 more p nm d l t s lm cs) :
    insert_node_recursive node (target :: r2 :: more) (.mk p nm d l t s lm cs) =
      if d then
        FileNode.mk p nm d l t s lm
          (updateFirstDir target (insert_node_recursive node (r2 :: more)) cs)
      else FileNode.mk p nm d l t s lm cs := by
  cases d <;> rfl

theorem treeOk_insert {rootName valid_paths isDirOf cache_map}
    (node : FileNode) (comps : List String) (cur : FileNode)
    (hcur : ∀ n ∈ allNodes cur, nodeCond rootName valid_paths isDirOf cache_map n)
    (hnode : ∀ n ∈ allNodes node, nodeCond rootName valid_paths isDirOf cache_map n) :
    ∀ n ∈ allNodes (insert_node_recursive node comps cur),
      nodeCond rootName valid_paths isDirOf cache_map n := by
  induction comps generalizing cur with
  | nil => rw [insert_node_recursive]; exact hcur
  | cons target rest ih =>
    cases rest with
    | nil =>
      rw [insert_node_single]
      by_cases hd : cur.is_dir = true
      · rw [if_pos hd]
        by_cases hn : (node.name == target) = true
        · rw [if_pos hn]
          cases cur with
          | mk p nm d l t s lm cs =>
            rw [addChildIfNew_mk]
            by_cases hdup : (cs.any fun c => c.path = node.path) = true
            · rw [if_pos hdup]; exact hcur
            · rw [if_neg hdup]
              intro n hn2
              rcases mem_allNodes_mk hn2 with h1 | ⟨c, hc, hm⟩
              · subst h1
                simp only [FileNode.is_dir_mk] at hd
                subst hd
                exact nodeCond_dir_transfer (hcur _ (allNodes_self _))
              · rcases List.mem_append.mp hc with h2 | h2
                · exact hcur n (allNodes_of_child h2 hm)
                · rcases List.mem_singleton.mp h2 with rfl
                  exact hnode n hm
        · rw [if_neg hn]; exact hcur
      · rw [if_neg hd]; exact hcur
    | cons r2 more =>
      cases cur with
      | mk p nm d l t s lm cs =>
        rw [insert_node_deep_mk]
        by_cases hd : d = true
        · rw [if_pos hd]
          intro n hn2
          rcases mem_allNodes_mk hn2 with h1 | ⟨c, hc, hm⟩
          · subst h1
            subst hd
            exact nodeCond_dir_transfer (hcur _ (allNodes_self _))
          · rcases updateFirstDir_mem hc with h2 | ⟨c', hc', rfl⟩
            · exact hcur n (allNodes_of_child h2 hm)
            · exact ih c' (fun m hm2 => hcur m (allNodes_of_child hc' hm2)) n hm
        · rw [if_neg hd]; exact hcur

theorem dataMapOf_lookup (rootName isDirOf cache_map)
    (valid_paths : List (List String)) (q : List String) :
    dataMapOf rootName isDirOf cache_map valid_paths q =
      if q ∈ valid_paths then some (mkDataNode rootName isDirOf cache_map q)
      else none := by
  unfold dataMapOf
  suffices H : ∀ (m : List String → Option FileNode),
      valid_paths.foldl
        (fun m q => mapInsert q (mkDataNode rootName isDirOf cache_map q) m) m q =
        if q ∈ valid_paths then some (mkDataNode rootName isDirOf cache_map q)
        else m q from H _
  induction valid_paths with
  | nil => intro m; simp
  | cons x xs ih =>
    intro m
    rw [List.foldl_cons, ih]
    by_cases hq : q ∈ xs
    · rw [if_pos hq, if_pos (List.mem_cons_of_mem _ hq)]
    · rw [if_neg hq]
      unfold mapInsert
      by_cases hx : q = x
      · subst hx
        rw [if_pos rfl, if_pos (List.mem_cons_self _ _)]
      · rw [if_neg hx, if_neg (by simp [hx, hq])]

theorem treeOk_buildLoop {rootName valid_paths isDirOf cache_map}
    (paths : List (List String)) (dmap : List String → Option FileNode) (root : FileNode)
    (hd : ∀ q n, dmap q = some n →
      n = mkDataNode rootName isDirOf cache_map q ∧ q ∈ valid_paths)
    (hroot : ∀ n ∈ allNodes root, nodeCond rootName valid_paths isDirOf cache_map n) :
    ∀ n ∈ allNodes (buildLoop paths dmap root),
      nodeCond rootName valid_paths isDirOf cache_map n := by
  induction paths generalizing dmap root with
  | nil => rw [buildLoop]; exact hroot
  | cons q rest ih =>
    rw [buildLoop]
    by_cases hq : q = []
    · rw [if_pos hq]; exact ih dmap root hd hroot
    · rw [if_neg hq]
      cases hmq : dmap q with
      | none => exact ih dmap root hd hroot
      | some node =>
        rcases hd q node hmq with ⟨rfl, hqvp⟩
        refine ih _ _ ?_ ?_
        · intro q' n' h'
          unfold mapRemove at h'
          by_cases hq' : q' = q
          · rw [if_pos hq'] at h'; cases h'
          · rw [if_neg hq'] at h'; exact hd q' n' h'
        · refine treeOk_insert _ _ _ hroot ?_
          intro n hn
          have hall : allNodes (mkDataNode rootName isDirOf cache_map q) =
              [mkDataNode rootName isDirOf cache_map q] := by
            cases hmk : mkDataNode rootName isDirOf cache_map q with
            | mk p nm d l t s lm cs =>
              have : cs = [] := by
                have := mkDataNode_children rootName isDirOf cache_map q
                rw [hmk] at this; simpa using this
              subst this
              rw [allNodes_mk, allNodesList]
          rw [hall] at hn
          rcases List.mem_singleton.mp hn with rfl
          unfold nodeCond
          rw [mkDataNode_path, mkDataNode_is_dir]
          refine Or.inr ⟨hqvp, hq, rfl, ?_⟩
          intro _
          rfl

theorem treeOk_finalize {rootName valid_paths isDirOf cache_map} :
    ∀ t, (∀ n ∈ allNodes t, nodeCond rootName valid_paths isDirOf cache_map n) →
      ∀ n ∈ allNodes (finalize_node t),
        nodeCond rootName valid_paths isDirOf cache_map n := by
  refine FileNode.strongInduction ?_
  intro p nm d l t s lm cs ih hall
  cases d
  · rw [finalize_node_file]; exact hall
  · rw [finalize_node_dir]
    intro n hn
    rcases mem_allNodes_mk hn with h1 | ⟨c, hc, hm⟩
    · subst h1
      exact nodeCond_dir_transfer (hall _ (allNodes_self _))
    · rw [finalizeList_eq_map] at hc
      rcases List.mem_map.mp hc with ⟨c0, hc0, rfl⟩
      have hc0' := (List.mem_insertionSort childLe).mp hc0
      exact ih c0 hc0' (fun m hm2 => hall m (allNodes_of_child hc0' hm2)) n hm

/-- Every node of a built tree is the root or stems from the data map of
its (valid) path. -/
theorem treeOk_build (rootName valid_paths isDirOf cache_map) :
    ∀ n ∈ allNodes (build_tree_from_paths rootName valid_paths isDirOf cache_map),
      nodeCond rootName valid_paths isDirOf cache_map n := by
  unfold build_tree_from_paths
  by_cases hvp : valid_paths = []
  · rw [if_pos hvp]
    intro n hn
    rw [allNodes_mk, allNodesList] at hn
    rcases List.mem_singleton.mp hn with rfl
    exact Or.inl ⟨rfl, rfl⟩
  · rw [if_neg hvp]
    refine treeOk_finalize _ ?_
    refine treeOk_buildLoop _ _ _ ?_ ?_
    · intro q n h
      rw [dataMapOf_lookup] at h
      by_cases hq : q ∈ valid_paths
      · rw [if_pos hq] at h
        exact ⟨(Option.some.inj h).symm, hq⟩
      · rw [if_neg hq] at h; cases h
    · intro n hn
      rw [allNodes_mk, allNodesList] at hn
      rcases List.mem_singleton.mp hn with rfl
      exact Or.inl ⟨rfl, rfl⟩

/-! ## Lemmas about the stats stage and the cache maps -/

theorem statsStage_mem {fs cache_map vp} {q : List String} {e : CacheEntry}
    (h : (q, e) ∈ statsStage fs cache_map vp) :
    q ∈ vp ∧ outcomeEntry (processFile fs cache_map q) = some e := by
  unfold statsStage at h
  suffices H : ∀ (acc : List (List String × CacheEntry)),
      (q, e) ∈ vp.foldl
        (fun acc p => match outcomeEntry (processFile fs cache_map p) with
          | some e => acc ++ [(p, e)]
          | none => acc) acc →
      (q, e) ∈ acc ∨ (q ∈ vp ∧ outcomeEntry (processFile fs cache_map q) = some e) by
    rcases H [] h with h0 | h0
    · cases h0
    · exact h0
  clear h
  induction vp with
  | nil => intro acc h; exact Or.inl h
  | cons x xs ih =>
    intro acc h
    rw [List.foldl_cons] at h
    cases hx : outcomeEntry (processFile fs cache_map x) with
    | none =>
      rw [hx] at h
      rcases ih acc h with h0 | ⟨h1, h2⟩
      · exact Or.inl h0
      · exact Or.inr ⟨List.mem_cons_of_mem _ h1, h2⟩
    | some ex =>
      rw [hx] at h
      rcases ih (acc ++ [(x, ex)]) h with h0 | ⟨h1, h2⟩
      · rcases List.mem_append.mp h0 with h3 | h3
        · exact Or.inl h3
        · rcases List.mem_singleton.mp h3 with h4
          rw [Prod.mk.injEq] at h4
          refine Or.inr ⟨h4.1 ▸ List.mem_cons_self _ _, ?_⟩
          rw [h4.1, hx, h4.2]
      · exact Or.inr ⟨List.mem_cons_of_mem _ h1, h2⟩

theorem applyChanges_notin {changes : List (List String × CacheEntry)}
    {m : List String → Option CacheEntry} {q : List String}
    (h : ∀ e, (q, e) ∉ changes) : applyChanges changes m q = m q := by
  unfold applyChanges
  induction changes generalizing m with
  | nil => rfl
  | cons pe rest ih =>
    rw [List.foldl_cons]
    rw [ih (fun e he => h e (List.mem_cons_of_mem _ he))]
    unfold save_cache_entry mapInsert
    by_cases hq : q = pe.1
    · exact absurd (hq ▸ List.mem_cons_self pe rest : (q, pe.2) ∈ pe :: rest)
        (by rw [hq]; exact hq ▸ h pe.2)
    · rw [if_neg hq]

theorem applyChanges_mem {changes : List (List String × CacheEntry)}
    {m : List String → Option CacheEntry} {q : List String} {e : CacheEntry}
    (hmem : (q, e) ∈ changes) (huniq : ∀ e', (q, e') ∈ changes → e' = e) :
    applyChanges changes m q = some e := by
  unfold applyChanges
  induction changes generalizing m with
  | nil => cases hmem
  | cons pe rest ih =>
    rw [List.foldl_cons]
    by_cases hq : ∃ e', (q, e') ∈ rest
    · rcases hq with ⟨e', he'⟩
      have he'e : e' = e := huniq e' (List.mem_cons_of_mem _ he')
      subst he'e
      exact ih he' (fun e'' h'' => huniq e'' (List.mem_cons_of_mem _ h''))
    · push_neg at hq
      have hpe : pe = (q, e) := by
        rcases List.mem_cons.mp hmem with h1 | h1
        · exact h1.symm
        · exact absurd h1 (hq e)
      subst hpe
      have : applyChanges rest (save_cache_entry q e m) q = save_cache_entry q e m q :=
        applyChanges_notin (fun e' he' => hq e' he')
      unfold applyChanges at this
      rw [this]
      unfold save_cache_entry mapInsert
      rw [if_pos rfl]

/-- For an in-bounds candidate file, the stats stage reads content iff
the cache is stale, and reuses the cached entry otherwise. -/
theorem processFile_inBounds {fs cache_map q meta}
    (hm : fs q = some meta) (hd : meta.is_dir = false)
    (h0 : meta.size ≠ 0) (hmax : ¬ meta.size > MAX_FILE_SIZE_BYTES) :
    processFile fs cache_map q =
      if cacheStale cache_map q meta then
        (if meta.readOk then
          FileOutcome.computed ⟨meta.last_modified, meta.size, meta.lines, meta.tokens⟩
        else FileOutcome.readFailed ⟨meta.last_modified, meta.size, 0, 0⟩)
      else FileOutcome.reused := by
  unfold processFile
  rw [hm]
  simp only [hd, Bool.false_eq_true, if_false, if_neg h0, if_neg hmax]
  unfold cacheStale
  cases hc : cache_map q with
  | none => simp
  | some entry =>
    simp only [bne, Bool.not_eq_eq_eq_not, Bool.not_true, Bool.or_eq_false_iff,
      Bool.not_eq_true]
    by_cases h1 : entry.last_modified = meta.last_modified <;>
      by_cases h2 : entry.size = meta.size <;> simp [h1, h2]

/-- What one learns from a pushed `changed_entries` entry: the path is
an in-bounds stale file and the entry records its current metadata. -/
theorem outcomeEntry_some {fs cache_map q e}
    (h : outcomeEntry (processFile fs cache_map q) = some e) :
    ∃ meta, fs q = some meta ∧ meta.is_dir = false ∧ meta.size ≠ 0 ∧
      ¬ meta.size > MAX_FILE_SIZE_BYTES ∧ cacheStale cache_map q meta = true ∧
      e.last_modified = meta.last_modified ∧ e.size = meta.size := by
  cases hm : fs q with
  | none =>
    unfold processFile at h
    rw [hm] at h
    cases h
  | some meta =>
    by_cases hd : meta.is_dir = true
    · unfold processFile at h
      rw [hm] at h
      simp [hd, outcomeEntry] at h
    · have hd' : meta.is_dir = false := by
        cases hdd : meta.is_dir
        · rfl
        · exact absurd hdd hd
      by_cases h0 : meta.size = 0
      · unfold processFile at h
        rw [hm] at h
        simp [hd', h0, outcomeEntry] at h
      · by_cases hmax : meta.size > MAX_FILE_SIZE_BYTES
        · unfold processFile at h
          rw [hm] at h
          simp [hd', h0, hmax, outcomeEntry] at h
        · rw [processFile_inBounds hm hd' h0 hmax] at h
          by_cases hst : cacheStale cache_map q meta = true
          · rw [if_pos hst] at h
            by_cases hro : meta.readOk = true
            · rw [if_pos hro] at h
              unfold outcomeEntry at h
              refine ⟨meta, rfl, hd', h0, hmax, hst, ?_, ?_⟩ <;>
                (rw [← Option.some.inj h])
            · rw [if_neg hro] at h
              unfold outcomeEntry at h
              refine ⟨meta, rfl, hd', h0, hmax, hst, ?_, ?_⟩ <;>
                (rw [← Option.some.inj h])
          · rw [if_neg hst] at h
            unfold outcomeEntry at h
            cases h

/-! ## The built tree always satisfies the aggregation and ordering
invariants -/

theorem aggOk_build (rootName valid_paths isDirOf cache_map) :
    aggOk (build_tree_from_paths rootName valid_paths isDirOf cache_map) = true := by
  unfold build_tree_from_paths
  by_cases hvp : valid_paths = []
  · rw [if_pos hvp, aggOk_dir, aggOkList_eq_all]
    simp [sumLines, sumTokens, sumSize]
  · rw [if_neg hvp]
    exact aggOk_finalize _

theorem sortedOk_build (rootName valid_paths isDirOf cache_map) :
    sortedOk (build_tree_from_paths rootName valid_paths isDirOf cache_map) = true := by
  unfold build_tree_from_paths
  by_cases hvp : valid_paths = []
  · rw [if_pos hvp, sortedOk_dir, sortedOkList_eq_all]
    simp [pairwiseLeB]
  · rw [if_neg hvp]
    exact sortedOk_finalize _

/-! ## Unfolding the scan at its three exits -/

theorem do_actual_scan_cancelled_eq (rootName fs vp store cache_map) :
    do_actual_scan true rootName fs vp store cache_map =
      Except.error "Scan cancelled after file enumeration." := rfl

theorem do_actual_scan_empty_eq (rootName fs store cache_map) :
    do_actual_scan false rootName fs [] store cache_map =
      Except.ok ⟨cleanup_removed_files [] store, cleanup_removed_files [] cache_map,
        FileNode.mk [] rootName true 0 0 0 "" []⟩ := rfl

theorem do_actual_scan_ok_eq {vp : List (List String)} (h : vp ≠ [])
    (rootName fs store cache_map) :
    do_actual_scan false rootName fs vp store cache_map =
      Except.ok ⟨applyChanges (statsStage fs cache_map vp) (cleanup_removed_files vp store),
        applyChanges (statsStage fs cache_map vp) (cleanup_removed_files vp cache_map),
        build_tree_from_paths rootName vp (isDirOfFs fs)
          (applyChanges (statsStage fs cache_map vp)
            (cleanup_removed_files vp cache_map))⟩ := by
  unfold do_actual_scan
  simp [h]

/-- After the commit, a path outside the valid candidates maps to
nothing: cleanup removed it and no changed entry re-adds it. -/
theorem scan_map_subset {fs cache_map vp} (m : List String → Option CacheEntry)
    {p : List String} (hp : p ∉ vp) :
    applyChanges (statsStage fs cache_map vp) (cleanup_removed_files vp m) p = none := by
  rw [applyChanges_notin]
  · unfold cleanup_removed_files
    rw [if_neg hp]
  · intro e he
    exact hp (statsStage_mem he).1

theorem statsStage_mem_intro {fs cache_map vp} {q : List String} {e : CacheEntry}
    (hq : q ∈ vp) (he : outcomeEntry (processFile fs cache_map q) = some e) :
    (q, e) ∈ statsStage fs cache_map vp := by
  unfold statsStage
  suffices H : ∀ (acc : List (List String × CacheEntry)),
      (q, e) ∈ acc ∨ q ∈ vp →
      (q, e) ∈ vp.foldl
        (fun acc p => match outcomeEntry (processFile fs cache_map p) with
          | some e => acc ++ [(p, e)]
          | none => acc) acc from H [] (Or.inr hq)
  clear hq
  induction vp with
  | nil =>
    intro acc h
    rcases h with h | h
    · exact h
    · cases h
  | cons x xs ih =>
    intro acc h
    rw [List.foldl_cons]
    rcases h with h | h
    · cases hx : outcomeEntry (processFile fs cache_map x) with
      | none => exact ih acc (Or.inl h)
      | some ex => exact ih _ (Or.inl (List.mem_append_left _ h))
    · rcases List.mem_cons.mp h with h1 | h1
      · subst h1
        rw [he]
        exact ih _ (Or.inl (List.mem_append_right _ (List.mem_singleton.mpr rfl)))
      · cases hx : outcomeEntry (processFile fs cache_map x) with
        | none => exact ih acc (Or.inr h1)
        | some ex => exact ih _ (Or.inr h1)

theorem statsStage_nil_of_none {fs cache_map vp}
    (h : ∀ q ∈ vp, outcomeEntry (processFile fs cache_map q) = none) :
    statsStage fs cache_map vp = [] := by
  unfold statsStage
  suffices H : ∀ (acc : List (List String × CacheEntry)),
      vp.foldl
        (fun acc p => match outcomeEntry (processFile fs cache_map p) with
          | some e => acc ++ [(p, e)]
          | none => acc) acc = acc from H []
  induction vp with
  | nil => intro acc; rfl
  | cons x xs ih =>
    intro acc
    rw [List.foldl_cons, h x (List.mem_cons_self _ _)]
    exact ih (fun q hq => h q (List.mem_cons_of_mem _ hq)) acc

/-! ## Idempotence of the scan over an unchanged filesystem -/

/-- After a commit, every in-bounds candidate file's entry matches its
current metadata (so a second scan finds nothing stale). -/
theorem post_commit_fresh {fs : List String → Option FsEntry}
    {cache_map : List String → Option CacheEntry} {vp : List (List String)}
    {q : List String} {meta : FsEntry}
    (hq : q ∈ vp) (hm : fs q = some meta) (hd : meta.is_dir = false)
    (h0 : meta.size ≠ 0) (hmax : ¬ meta.size > MAX_FILE_SIZE_BYTES) :
    ∃ ce, applyChanges (statsStage fs cache_map vp)
        (cleanup_removed_files vp cache_map) q = some ce ∧
      ce.last_modified = meta.last_modified ∧ ce.size = meta.size := by
  by_cases hst : cacheStale cache_map q meta = true
  · -- stale: the stage pushed a fresh entry for `q`
    have hout : outcomeEntry (processFile fs cache_map q) =
        some (if meta.readOk then
          (⟨meta.last_modified, meta.size, meta.lines, meta.tokens⟩ : CacheEntry)
        else ⟨meta.last_modified, meta.size, 0, 0⟩) := by
      rw [processFile_inBounds hm hd h0 hmax, if_pos hst]
      by_cases hro : meta.readOk = true
      · rw [if_pos hro, if_pos hro]; rfl
      · rw [if_neg hro, if_neg hro]; rfl
    refine ⟨_, applyChanges_mem (statsStage_mem_intro hq hout) ?_, ?_, ?_⟩
    · intro e' he'
      have h2 := (statsStage_mem he').2
      rw [hout] at h2
      exact (Option.some.inj h2).symm
    · by_cases hro : meta.readOk = true <;> simp [hro]
    · by_cases hro : meta.readOk = true <;> simp [hro]
  · -- fresh: nothing was pushed for `q`, the cached entry survives cleanup
    have hnone : ∀ e, (q, e) ∉ statsStage fs cache_map vp := by
      intro e he
      have h2 := (statsStage_mem he).2
      rw [processFile_inBounds hm hd h0 hmax, if_neg hst] at h2
      cases h2
    rw [applyChanges_notin hnone]
    unfold cleanup_removed_files
    rw [if_pos hq]
    unfold cacheStale at hst
    cases hc : cache_map q with
    | none => rw [hc] at hst; exact absurd rfl hst
    | some entry =>
      rw [hc] at hst
      simp only [Bool.or_eq_true, bne_iff_ne, not_or, not_not] at hst
      exact ⟨entry, rfl, hst.1, hst.2⟩

/-- Scanning on top of a committed cache finds nothing to change. -/
theorem statsStage_idempotent (fs : List String → Option FsEntry)
    (cache_map : List String → Option CacheEntry) (vp : List (List String)) :
    statsStage fs
      (applyChanges (statsStage fs cache_map vp) (cleanup_removed_files vp cache_map))
      vp = [] := by
  apply statsStage_nil_of_none
  intro q hq
  cases hm : fs q with
  | none => unfold processFile; rw [hm]; rfl
  | some meta =>
    by_cases hd : meta.is_dir = true
    · unfold processFile; rw [hm]; simp [hd]; rfl
    · have hd' : meta.is_dir = false := by
        cases hdd : meta.is_dir
        · rfl
        · exact absurd hdd hd
      by_cases h0 : meta.size = 0
      · unfold processFile; rw [hm]; simp [hd', h0]; rfl
      · by_cases hmax : meta.size > MAX_FILE_SIZE_BYTES
        · unfold processFile; rw [hm]; simp [hd', h0, hmax]; rfl
        · rcases post_commit_fresh hq hm hd' h0 hmax with ⟨ce, hce, h1, h2⟩
          rw [processFile_inBounds hm hd' h0 hmax]
          have hst : cacheStale
              (applyChanges (statsStage fs cache_map vp)
                (cleanup_removed_files vp cache_map)) q meta = false := by
            unfold cacheStale
            rw [hce]
            simp [h1, h2]
          rw [hst]
          rfl

/-- The committed map only holds valid keys, so a second cleanup is the
identity on it. -/
theorem cleanup_post_commit (fs : List String → Option FsEntry)
    (cache_map : List String → Option CacheEntry) (vp : List (List String)) :
    cleanup_removed_files vp
      (applyChanges (statsStage fs cache_map vp) (cleanup_removed_files vp cache_map)) =
    applyChanges (statsStage fs cache_map vp) (cleanup_removed_files vp cache_map) := by
  funext q
  by_cases hq : q ∈ vp
  · show (if q ∈ vp then _ else none) = _
    rw [if_pos hq]
  · have h := @scan_map_subset fs cache_map vp cache_map q hq
    show (if q ∈ vp then _ else none) = _
    rw [if_neg hq, h]

/-- An unignored node within the depth cap is collected by the
traversal. -/
theorem gather_collects {t : FsTree} {parentComps ignore_patterns depth}
    (hdepth : ¬ depth > 30)
    (hig : path_ignored_by_patterns (parentComps ++ [t.name]) ignore_patterns = false) :
    (parentComps ++ [t.name]) ∈
      gather_valid_items t parentComps ignore_patterns depth := by
  unfold gather_valid_items
  rw [if_neg hdepth, hig]
  simp only [Bool.false_eq_true, if_false]
  exact List.mem_cons_self _ _

/-! # The claims -/

theorem char_notin_pathString_lower {comps : List String} {ch : Char}
    (hch : ch ≠ '/') (h : ∀ x ∈ comps, ch ∉ lcData x) :
    ch ∉ (pathString comps).map Char.toLower := by
  intro hmem
  rcases mem_pathString_lower hmem with h1 | ⟨x, hx, hcx⟩
  · exact hch h1
  · exact h x hx hcx

/-- C4 (counterexample): with the pattern list `["*.log", "/node_modules/"]`,
the traversal's classifier ignores neither the file `/r/app.log` nor the
directory `/r/node_modules` — the claim says both are ignored. The
unanchored pattern is a literal substring test for the text `*.log`, and
the `/`-anchored pattern keeps its trailing slash when compared against
path segments, so it can never equal one. -/
theorem claim_c4_counterexample :
    path_ignored_by_patterns ["r", "app.log"] ["*.log", "/node_modules/"] = false ∧
    path_ignored_by_patterns ["r", "node_modules"] ["*.log", "/node_modules/"] = false := by
  decide

/-- C4 (amended): with patterns `["*.log", "/node_modules/"]`, the
traversal ignores a file `app.log` at NO depth and a directory
`node_modules` at NO depth: for every prefix of components whose
lowercasings contain neither `*` nor `/`, both paths are classified
not-ignored, and `gather_valid_items` collects both nodes (within the
depth cap) instead of pruning them. -/
theorem claim_c4_amended (comps : List String) (children : List FsTree) (depth : Nat)
    (hstar : ∀ x ∈ comps, '*' ∉ lcData x)
    (hslash : ∀ x ∈ comps, '/' ∉ lcData x)
    (hdepth : ¬ depth > 30) :
    path_ignored_by_patterns (comps ++ ["app.log"]) ["*.log", "/node_modules/"] = false ∧
    path_ignored_by_patterns (comps ++ ["node_modules"]) ["*.log", "/node_modules/"] = false ∧
    (comps ++ ["app.log"]) ∈
      gather_valid_items (FsTree.file "app.log") comps ["*.log", "/node_modules/"] depth ∧
    (comps ++ ["node_modules"]) ∈
      gather_valid_items (FsTree.dir "node_modules" children) comps
        ["*.log", "/node_modules/"] depth := by
  have hig : ∀ last : String, ('*' ∉ lcData last) → ('/' ∉ lcData last) →
      (lcData last ≠ ['n','o','d','e','_','m','o','d','u','l','e','s','/']) →
      path_ignored_by_patterns (comps ++ [last]) ["*.log", "/node_modules/"] = false := by
    intro last hstar' hslash' hlast
    have hstarA : ∀ x ∈ comps ++ [last], '*' ∉ lcData x := by
      intro x hx
      rcases List.mem_append.mp hx with h1 | h1
      · exact hstar x h1
      · rcases List.mem_singleton.mp h1 with rfl; exact hstar'
    have hslashA : ∀ x ∈ comps ++ [last], '/' ∉ lcData x := by
      intro x hx
      rcases List.mem_append.mp hx with h1 | h1
      · exact hslash x h1
      · rcases List.mem_singleton.mp h1 with rfl; exact hslash'
    unfold path_ignored_by_patterns
    rw [List.any_cons, List.any_cons, List.any_nil]
    have e1 : patternMatches (comps ++ [last])
        ((pathString (comps ++ [last])).map Char.toLower) "*.log" =
        hasSubSeq ((pathString (comps ++ [last])).map Char.toLower)
          ['*', '.', 'l', 'o', 'g'] := rfl
    have e2 : patternMatches (comps ++ [last])
        ((pathString (comps ++ [last])).map Char.toLower) "/node_modules/" =
        (pathSegments (comps ++ [last])).any
          (fun seg => seg == ['n','o','d','e','_','m','o','d','u','l','e','s','/']) := rfl
    rw [e1, e2]
    rw [hasSubSeq_eq_false_of_marker (by decide)
      (char_notin_pathString_lower (by decide) hstarA)]
    rw [segmentAny_eq_false (by decide) (by decide) hslashA]
    rfl
  have h1 := hig "app.log" (by decide) (by decide) (by decide)
  have h2 := hig "node_modules" (by decide) (by decide) (by decide)
  have g1 : (comps ++ ["app.log"]) ∈
      gather_valid_items (FsTree.file "app.log") comps ["*.log", "/node_modules/"] depth :=
    gather_collects hdepth h1
  have g2 : (comps ++ ["node_modules"]) ∈
      gather_valid_items (FsTree.dir "node_modules" children) comps
        ["*.log", "/node_modules/"] depth :=
    gather_collects hdepth h2
  exact ⟨h1, h2, g1, g2⟩

theorem claim_c4_witness :
    ((∀ x ∈ ["r"], '*' ∉ lcData x) ∧ (∀ x ∈ ["r"], '/' ∉ lcData x) ∧ ¬ (1 : Nat) > 30) ∧
    (path_ignored_by_patterns (["r"] ++ ["app.log"]) ["*.log", "/node_modules/"] = false ∧
     path_ignored_by_patterns (["r"] ++ ["node_modules"]) ["*.log", "/node_modules/"] = false ∧
     (["r"] ++ ["app.log"]) ∈
       gather_valid_items (FsTree.file "app.log") ["r"] ["*.log", "/node_modules/"] 1 ∧
     (["r"] ++ ["node_modules"]) ∈
       gather_valid_items (FsTree.dir "node_modules" []) ["r"]
         ["*.log", "/node_modules/"] 1) :=
  ⟨⟨by decide, by decide, by decide⟩,
   claim_c4_amended ["r"] [] 1 (by decide) (by decide) (by decide)⟩

/-- C5 (counterexample): with patterns `["*.log", "!keep.log"]`, a
sibling `.log` file (`/r/app.log`) is NOT ignored, though the claim says
sibling `.log` files are ignored. (Consistently, `keep.log` is also not
ignored, but not because of negation: the classifier treats `!keep.log`
as a literal substring pattern, and `*.log` likewise never matches.) -/
theorem claim_c5_counterexample :
    path_ignored_by_patterns ["r", "app.log"] ["*.log", "!keep.log"] = false ∧
    path_ignored_by_patterns ["r", "keep.log"] ["*.log", "!keep.log"] = false := by
  decide

/-- C5 (amended): with patterns `["*.log", "!keep.log"]`, the
classification used by traversal ignores neither `keep.log` nor its
sibling `.log` files, at any depth whose components' lowercasings
contain no `*` and no `!`: both patterns degenerate to literal substring
tests (for the texts `*.log` and `!keep.log`), and negation is not
interpreted. `gather_valid_items` collects both files. -/
theorem claim_c5_amended (comps : List String) (depth : Nat)
    (hstar : ∀ x ∈ comps, '*' ∉ lcData x)
    (hbang : ∀ x ∈ comps, '!' ∉ lcData x)
    (hdepth : ¬ depth > 30) :
    path_ignored_by_patterns (comps ++ ["keep.log"]) ["*.log", "!keep.log"] = false ∧
    path_ignored_by_patterns (comps ++ ["app.log"]) ["*.log", "!keep.log"] = false ∧
    (comps ++ ["keep.log"]) ∈
      gather_valid_items (FsTree.file "keep.log") comps ["*.log", "!keep.log"] depth ∧
    (comps ++ ["app.log"]) ∈
      gather_valid_items (FsTree.file "app.log") comps ["*.log", "!keep.log"] depth := by
  have hig : ∀ last : String, ('*' ∉ lcData last) → ('!' ∉ lcData last) →
      path_ignored_by_patterns (comps ++ [last]) ["*.log", "!keep.log"] = false := by
    intro last hstar' hbang'
    have hstarA : ∀ x ∈ comps ++ [last], '*' ∉ lcData x := by
      intro x hx
      rcases List.mem_append.mp hx with h1 | h1
      · exact hstar x h1
      · rcases List.mem_singleton.mp h1 with rfl; exact hstar'
    have hbangA : ∀ x ∈ comps ++ [last], '!' ∉ lcData x := by
      intro x hx
      rcases List.mem_append.mp hx with h1 | h1
      · exact hbang x h1
      · rcases List.mem_singleton.mp h1 with rfl; exact hbang'
    unfold path_ignored_by_patterns
    rw [List.any_cons, List.any_cons, List.any_nil]
    have e1 : patternMatches (comps ++ [last])
        ((pathString (comps ++ [last])).map Char.toLower) "*.log" =
        hasSubSeq ((pathString (comps ++ [last])).map Char.toLower)
          ['*', '.', 'l', 'o', 'g'] := rfl
    have e2 : patternMatches (comps ++ [last])
        ((pathString (comps ++ [last])).map Char.toLower) "!keep.log" =
        hasSubSeq ((pathString (comps ++ [last])).map Char.toLower)
          ['!', 'k', 'e', 'e', 'p', '.', 'l', 'o', 'g'] := rfl
    rw [e1, e2]
    rw [hasSubSeq_eq_false_of_marker (by decide)
      (char_notin_pathString_lower (by decide) hstarA)]
    rw [hasSubSeq_eq_false_of_marker (by decide)
      (char_notin_pathString_lower (by decide) hbangA)]
    rfl
  have h1 := hig "keep.log" (by decide) (by decide)
  have h2 := hig "app.log" (by decide) (by decide)
  exact ⟨h1, h2, gather_collects hdepth h1, gather_collects hdepth h2⟩

theorem claim_c5_witness :
    ((∀ x ∈ ["r"], '*' ∉ lcData x) ∧ (∀ x ∈ ["r"], '!' ∉ lcData x) ∧ ¬ (1 : Nat) > 30) ∧
    (path_ignored_by_patterns (["r"] ++ ["keep.log"]) ["*.log", "!keep.log"] = false ∧
     path_ignored_by_patterns (["r"] ++ ["app.log"]) ["*.log", "!keep.log"] = false ∧
     (["r"] ++ ["keep.log"]) ∈
       gather_valid_items (FsTree.file "keep.log") ["r"] ["*.log", "!keep.log"] 1 ∧
     (["r"] ++ ["app.log"]) ∈
       gather_valid_items (FsTree.file "app.log") ["r"] ["*.log", "!keep.log"] 1) :=
  ⟨⟨by decide, by decide, by decide⟩,
   claim_c5_amended ["r"] 1 (by decide) (by decide) (by decide)⟩

/-- C1: in every tree returned by a completed scan, every directory
node's numeric fields (`lines`, `tokens`, `size` — the aggregated
fields of `FileNode`) equal the exact sums of its direct children's
fields, recursively down to the leaves; an empty directory carries
zeros (the sum over no children). -/
theorem claim_c1_directory_stats_are_sums (rootName : String)
    (fs : List String → Option FsEntry) (final_valid_paths : List (List String))
    (store cache_map : List String → Option CacheEntry) :
    match do_actual_scan false rootName fs final_valid_paths store cache_map with
    | Except.ok out => aggOk out.tree = true
    | Except.error _ => True := by
  by_cases hvp : final_valid_paths = []
  · subst hvp
    rw [do_actual_scan_empty_eq]
    show aggOk (FileNode.mk [] rootName true 0 0 0 "" []) = true
    rw [aggOk_dir, aggOkList_eq_all]
    simp [sumLines, sumTokens, sumSize]
  · rw [do_actual_scan_ok_eq hvp]
    exact aggOk_build _ _ _ _

/-- C2: for a candidate file within the size bounds, the stats stage
reads the file's content iff the cached entry is missing or its
`last_modified` or `size` differs from the current metadata; when the
entry is fresh the outcome is `reused` — no content read, cached stats
kept. -/
theorem claim_c2_staleness_gates_recompute
    (fs : List String → Option FsEntry)
    (cache_map : List String → Option CacheEntry) (q : List String) (meta : FsEntry)
    (hm : fs q = some meta) (hd : meta.is_dir = false)
    (h0 : meta.size ≠ 0) (hmax : ¬ meta.size > MAX_FILE_SIZE_BYTES) :
    readsContent (processFile fs cache_map q) = cacheStale cache_map q meta ∧
    (cacheStale cache_map q meta = false →
      processFile fs cache_map q = FileOutcome.reused) := by
  rw [processFile_inBounds hm hd h0 hmax]
  by_cases hst : cacheStale cache_map q meta = true
  · rw [hst]
    simp only [if_true]
    constructor
    · by_cases hro : meta.readOk = true <;> simp [hro, readsContent]
    · intro h
      exact Bool.noConfusion h
  · have hst' : cacheStale cache_map q meta = false := by
      cases h : cacheStale cache_map q meta
      · rfl
      · exact absurd h hst
    rw [hst']
    simp [readsContent]

theorem claim_c2_witness :
    (c2fs ["a.txt"] = some ⟨false, 3, "5", true, 1, 2⟩ ∧
     (⟨false, 3, "5", true, 1, 2⟩ : FsEntry).is_dir = false ∧
     (⟨false, 3, "5", true, 1, 2⟩ : FsEntry).size ≠ 0 ∧
     ¬ (⟨false, 3, "5", true, 1, 2⟩ : FsEntry).size > MAX_FILE_SIZE_BYTES) ∧
    (readsContent (processFile c2fs (fun _ => none) ["a.txt"]) =
       cacheStale (fun _ => none) ["a.txt"] ⟨false, 3, "5", true, 1, 2⟩ ∧
     (cacheStale (fun _ => none) ["a.txt"] ⟨false, 3, "5", true, 1, 2⟩ = false →
       processFile c2fs (fun _ => none) ["a.txt"] = FileOutcome.reused)) :=
  ⟨⟨rfl, rfl, by decide, by decide⟩,
   claim_c2_staleness_gates_recompute c2fs (fun _ => none) ["a.txt"]
     ⟨false, 3, "5", true, 1, 2⟩ rfl rfl (by decide) (by decide)⟩

/-- C3: when a scan reaches the commit point, every cache key that is
not among the valid candidate paths is deleted from the persistent
store and removed from the in-memory map (the cleanup and the upserts
are modelled as the one committed transaction of the source): after the
scan such a path maps to no `CacheEntry` in either. -/
theorem claim_c3_cleanup_removes_stale_keys (rootName : String)
    (fs : List String → Option FsEntry) (final_valid_paths : List (List String))
    (store cache_map : List String → Option CacheEntry) (p : List String)
    (hp : p ∉ final_valid_paths) :
    match do_actual_scan false rootName fs final_valid_paths store cache_map with
    | Except.ok out => out.store p = none ∧ out.cache p = none
    | Except.error _ => True := by
  by_cases hvp : final_valid_paths = []
  · subst hvp
    rw [do_actual_scan_empty_eq]
    show (cleanup_removed_files [] store p = none ∧
      cleanup_removed_files [] cache_map p = none)
    unfold cleanup_removed_files
    simp
  · rw [do_actual_scan_ok_eq hvp]
    exact ⟨scan_map_subset store hp, scan_map_subset cache_map hp⟩

theorem claim_c3_witness :
    (["gone.txt"] ∉ [[], ["a.txt"]]) ∧
    (match do_actual_scan false "r" c2fs [[], ["a.txt"]] c3store c3store with
     | Except.ok out => out.store ["gone.txt"] = none ∧ out.cache ["gone.txt"] = none
     | Except.error _ => True) :=
  ⟨by decide,
   claim_c3_cleanup_removes_stale_keys "r" c2fs [[], ["a.txt"]] c3store c3store
     ["gone.txt"] (by decide)⟩

/-- C8: in every tree returned by a scan, each directory node's children
list is sorted by the finalize comparator: every file-type child before
every directory-type child, case-insensitively alphabetical within each
group. -/
theorem claim_c8_children_ordering (rootName : String)
    (fs : List String → Option FsEntry) (final_valid_paths : List (List String))
    (store cache_map : List String → Option CacheEntry) :
    match do_actual_scan false rootName fs final_valid_paths store cache_map with
    | Except.ok out => sortedOk out.tree = true
    | Except.error _ => True := by
  by_cases hvp : final_valid_paths = []
  · subst hvp
    rw [do_actual_scan_empty_eq]
    show sortedOk (FileNode.mk [] rootName true 0 0 0 "" []) = true
    rw [sortedOk_dir, sortedOkList_eq_all]
    simp [pairwiseLeB]
  · rw [do_actual_scan_ok_eq hvp]
    exact sortedOk_build _ _ _ _

/-- C10: after every committed scan the persistent store's keys form a
subset of the candidate set (entries of any other project root are
deleted); an empty candidate list empties the whole table while the
scan still returns a zero-stat, childless root node. -/
theorem claim_c10_store_keys_subset_candidates (rootName : String)
    (fs : List String → Option FsEntry) (final_valid_paths : List (List String))
    (store cache_map : List String → Option CacheEntry) :
    match do_actual_scan false rootName fs final_valid_paths store cache_map with
    | Except.ok out =>
        (∀ p, out.store p ≠ none → p ∈ final_valid_paths) ∧
        (final_valid_paths = [] →
          out.tree = FileNode.mk [] rootName true 0 0 0 "" [] ∧
          ∀ p, out.store p = none)
    | Except.error _ => True := by
  by_cases hvp : final_valid_paths = []
  · subst hvp
    rw [do_actual_scan_empty_eq]
    show (∀ p, cleanup_removed_files [] store p ≠ none → p ∈ ([] : List (List String))) ∧ _
    unfold cleanup_removed_files
    simp
  · rw [do_actual_scan_ok_eq hvp]
    refine ⟨fun p h => ?_, fun h => absurd h hvp⟩
    by_cases hp : p ∈ final_valid_paths
    · exact hp
    · exact absurd (scan_map_subset store hp) h

/-- C6 (counterexample): a fresh (uncached) file one byte over the 5 MiB
cap is skipped by the stats stage, so no cache entry exists for it and
the produced tree shows `size = 0` for its node — not the true size
`MAX_FILE_SIZE_BYTES + 1` the claim promises (`lines = tokens = 0` do
hold). -/
theorem claim_c6_counterexample :
    (match do_actual_scan false "r" c6fs [[], ["big.txt"]]
        (fun _ => none) (fun _ => none) with
     | Except.ok out => (allNodes out.tree).map (fun n => (n.path, n.lines, n.tokens, n.size))
     | Except.error _ => []) =
      [([], 0, 0, 0), (["big.txt"], 0, 0, 0)] ∧
    MAX_FILE_SIZE_BYTES + 1 ≠ 0 := by
  constructor
  · simp [do_actual_scan, build_tree_from_paths, buildLoop, dataMapOf, mkDataNode,
      insert_node_recursive, addChildIfNew, finalize_node, finalizeList, statsStage,
      processFile, c6fs, cleanup_removed_files, applyChanges, mapInsert,
      mapRemove, isDirOfFs, List.insertionSort, List.orderedInsert, sumLines, sumTokens,
      sumSize, MAX_FILE_SIZE_BYTES, childLe, childCmp, pathLe, pathLeB,
      outcomeEntry, save_cache_entry, allNodes_mk, allNodesList_eq_flat]
  · decide

/-- C6 (amended): a candidate file observed with size 0 or above the
5 MiB cap is skipped by the stats stage; if it has no cache entry, every
node for it in the produced tree carries `lines = 0`, `tokens = 0` and
`size = 0` — in the oversized case too, the displayed size is 0, not the
true size (with a leftover cache entry, the stale cached stats would be
displayed instead). -/
theorem claim_c6_amended (rootName : String) (fs : List String → Option FsEntry)
    (final_valid_paths : List (List String))
    (store cache_map : List String → Option CacheEntry)
    (p : List String) (meta : FsEntry)
    (hne : p ≠ [])
    (hm : fs p = some meta) (hd : meta.is_dir = false)
    (hsz : meta.size = 0 ∨ meta.size > MAX_FILE_SIZE_BYTES)
    (hc : cache_map p = none) :
    match do_actual_scan false rootName fs final_valid_paths store cache_map with
    | Except.ok out => ∀ n ∈ allNodes out.tree, n.path = p →
        n.lines = 0 ∧ n.tokens = 0 ∧ n.size = 0
    | Except.error _ => True := by
  by_cases hvp : final_valid_paths = []
  · subst hvp
    rw [do_actual_scan_empty_eq]
    show ∀ n ∈ allNodes (FileNode.mk [] rootName true 0 0 0 "" []), _
    intro n hn hp
    rw [allNodes_mk, allNodesList] at hn
    rcases List.mem_singleton.mp hn with rfl
    rw [FileNode.path_mk] at hp
    exact absurd hp.symm hne
  · rw [do_actual_scan_ok_eq hvp]
    intro n hn hp
    have hcache2 : applyChanges (statsStage fs cache_map final_valid_paths)
        (cleanup_removed_files final_valid_paths cache_map) p = none := by
      rw [applyChanges_notin]
      · unfold cleanup_removed_files
        by_cases hpv : p ∈ final_valid_paths
        · rw [if_pos hpv, hc]
        · rw [if_neg hpv]
      · intro e he
        rcases outcomeEntry_some (statsStage_mem he).2 with
          ⟨meta', hm', _, h0', hmax', _, _, _⟩
        rw [hm] at hm'
        rcases Option.some.inj hm' with rfl
        rcases hsz with h | h
        · exact h0' h
        · exact hmax' h
    have hQ := treeOk_build rootName final_valid_paths (isDirOfFs fs)
      (applyChanges (statsStage fs cache_map final_valid_paths)
        (cleanup_removed_files final_valid_paths cache_map)) n hn
    rcases hQ with ⟨hp0, _⟩ | ⟨_, _, hdir, hfile⟩
    · rw [hp] at hp0; exact absurd hp0 hne
    · have hdirp : isDirOfFs fs n.path = false := by
        rw [hp]
        unfold isDirOfFs
        rw [hm]
        exact hd
      have hnf : n.is_dir = false := by rw [hdir, hdirp]
      have hn2 := hfile hnf
      rw [hn2, hp]
      rw [hp] at hdirp
      unfold mkDataNode
      rw [hdirp, hcache2]
      simp

theorem claim_c6_witness :
    ((["big.txt"] : List String) ≠ [] ∧
     c6fs ["big.txt"] = some ⟨false, MAX_FILE_SIZE_BYTES + 1, "7", true, 9, 9⟩ ∧
     (⟨false, MAX_FILE_SIZE_BYTES + 1, "7", true, 9, 9⟩ : FsEntry).is_dir = false ∧
     ((⟨false, MAX_FILE_SIZE_BYTES + 1, "7", true, 9, 9⟩ : FsEntry).size = 0 ∨
      (⟨false, MAX_FILE_SIZE_BYTES + 1, "7", true, 9, 9⟩ : FsEntry).size >
        MAX_FILE_SIZE_BYTES) ∧
     (fun _ => (none : Option CacheEntry)) ["big.txt"] = none) ∧
    (match do_actual_scan false "r" c6fs [[], ["big.txt"]]
        (fun _ => none) (fun _ => none) with
     | Except.ok out => ∀ n ∈ allNodes out.tree, n.path = ["big.txt"] →
         n.lines = 0 ∧ n.tokens = 0 ∧ n.size = 0
     | Except.error _ => True) :=
  ⟨⟨by decide, rfl, rfl, Or.inr (by decide), rfl⟩,
   claim_c6_amended "r" c6fs [[], ["big.txt"]] (fun _ => none) (fun _ => none)
     ["big.txt"] ⟨false, MAX_FILE_SIZE_BYTES + 1, "7", true, 9, 9⟩
     (by decide) rfl rfl (Or.inr (by decide)) rfl⟩

/-- C7 (counterexample): with the cancellation flag set after
enumeration, the scan emits the terminal status
"failed: Scan cancelled after file enumeration." — not "cancelled" —
propagates that error to the caller, and commits nothing: a stale store
entry (`old.txt`, not among the enumerated paths) survives, though the
claim promises a cleanup-only transaction would have removed it. -/
theorem claim_c7_counterexample :
    scan_code_context_builder_project true "r" (fun _ => none) [[]] c7store c7store =
      (["scan_complete: failed: Scan cancelled after file enumeration."],
       Except.error "Scan cancelled after file enumeration.", c7store) ∧
    c7store ["old.txt"] = some ⟨"1", 1, 1, 1⟩ ∧
    "scan_complete: failed: Scan cancelled after file enumeration." ≠
      "scan_complete: cancelled" :=
  ⟨rfl, rfl, by decide⟩

/-- C7 (amended): if the cancellation flag is observed set at the
post-enumeration checkpoint, `do_actual_scan` returns the error
"Scan cancelled after file enumeration."; the command wrapper emits
exactly once the terminal status "failed: " followed by that message,
propagates the error to the caller, and leaves the persistent store
untouched (no cleanup transaction runs). -/
theorem claim_c7_amended (rootName : String) (fs : List String → Option FsEntry)
    (final_valid_paths : List (List String))
    (store cache_map : List String → Option CacheEntry) :
    scan_code_context_builder_project true rootName fs final_valid_paths store cache_map =
      (["scan_complete: failed: Scan cancelled after file enumeration."],
       Except.error "Scan cancelled after file enumeration.", store) := rfl

/-! ## C9: determinism and idempotence over an unchanged filesystem -/

/-- C9: a scan is a pure function of the observed filesystem, candidate
list and loaded cache (so two runs over unchanged state are identical),
and it is idempotent: running it again on top of the state it committed
(the in-memory map equals the store after a scan, and is loaded from it)
changes nothing — byte-identical cache entries, the identical tree. -/
theorem claim_c9_scan_idempotent (rootName : String)
    (fs : List String → Option FsEntry) (final_valid_paths : List (List String))
    (m : List String → Option CacheEntry) :
    match do_actual_scan false rootName fs final_valid_paths m m with
    | Except.ok out =>
        out.cache = out.store ∧
        do_actual_scan false rootName fs final_valid_paths out.store out.store =
          Except.ok out
    | Except.error _ => True := by
  by_cases hvp : final_valid_paths = []
  · subst hvp
    rw [do_actual_scan_empty_eq]
    refine ⟨rfl, ?_⟩
    rw [do_actual_scan_empty_eq]
    have hcl : cleanup_removed_files [] (cleanup_removed_files [] m) =
        cleanup_removed_files [] m := by
      funext q
      show (if q ∈ ([] : List (List String)) then _ else none) = _
      rw [if_neg (List.not_mem_nil q)]
      show _ = (if q ∈ ([] : List (List String)) then m q else none)
      rw [if_neg (List.not_mem_nil q)]
    rw [hcl]
  · rw [do_actual_scan_ok_eq hvp]
    refine ⟨rfl, ?_⟩
    rw [do_actual_scan_ok_eq hvp]
    rw [statsStage_idempotent fs m final_valid_paths]
    rw [cleanup_post_commit fs m final_valid_paths]
    rfl
